import Mathlib

/-!
Verification development for the single-host web crawler in `crawl.py`.

The crawler's core (URL normalization, the `pages` frontier/cache mapping,
link discovery via `add_link`, page fetching via `extract_links`, the crawl
loop, robots/sitemap loading, and HTTP-request header handling) is shallowly
embedded below.  Strings are modeled as `List Char`; Python `time.time()` is
modeled as an integer timestamp sampled once per operation; the HTTP
transport, the HTML/sitemap parsers and the robots directive set are external
collaborators and are modeled as oracle functions supplied in an `Env`.
Network activity is recorded as an explicit event trace (`wait`, `HEAD`,
`GET`), and operations that can raise an unhandled Python exception return
`Except.error` at exactly the points where the source raises.
-/

/-- Strings as lists of characters (Python `str` for our purposes). -/
abbrev Str := List Char

/-- Uppercase-to-lowercase table for ASCII letters. -/
def lowerTable : List (Char × Char) :=
  [('A', 'a'), ('B', 'b'), ('C', 'c'), ('D', 'd'), ('E', 'e'), ('F', 'f'),
   ('G', 'g'), ('H', 'h'), ('I', 'i'), ('J', 'j'), ('K', 'k'), ('L', 'l'),
   ('M', 'm'), ('N', 'n'), ('O', 'o'), ('P', 'p'), ('Q', 'q'), ('R', 'r'),
   ('S', 's'), ('T', 't'), ('U', 'u'), ('V', 'v'), ('W', 'w'), ('X', 'x'),
   ('Y', 'y'), ('Z', 'z')]

/-- First-match lookup in a character translation table. -/
def tableLookup : List (Char × Char) → Char → Option Char
  | [], _ => none
  | (a, b) :: rest, c => if c = a then some b else tableLookup rest c

/-- Models Python `str.lower` on a single character (ASCII scope; the inputs
the crawler handles are ASCII URLs). -/
def lowerChar (c : Char) : Char :=
  match tableLookup lowerTable c with
  | some l => l
  | none => c

/-- Models Python `str.lower` on a string. -/
def lowerStr (s : Str) : Str := s.map lowerChar

/-- Splits a string at the first occurrence of character `c`: returns the part
before it and, when `c` occurs, the part after it (models `str.split(c, 1)`,
`str.partition(c)` and `str.find(c)`-based slicing). -/
def breakAt (c : Char) : Str → Str × Option Str
  | [] => ([], none)
  | x :: xs =>
    if x = c then ([], some xs)
    else
      let r := breakAt c xs
      (x :: r.1, r.2)

/-- Takes characters until the predicate holds; returns the taken part and the
remainder (models scanning for the first of several delimiters). -/
def takeUntil (p : Char → Bool) : Str → Str × Str
  | [] => ([], [])
  | x :: xs => if p x then ([], x :: xs) else let r := takeUntil p xs; (x :: r.1, r.2)

/-- Models Python `str.lstrip(chars)`: drops leading characters belonging to
the given character set. -/
def lstripChars (cs : List Char) (l : Str) : Str := l.dropWhile (fun c => cs.contains c)

/-- Models the Python `c in s` membership test for a single character. -/
def strContains : Str → Char → Bool
  | [], _ => false
  | x :: xs, c => (x == c) || strContains xs c

/-- Models the Python `needle in hay` substring test. -/
def hasSubstr (needle : Str) : Str → Bool
  | [] => needle.isEmpty
  | c :: rest => needle.isPrefixOf (c :: rest) || hasSubstr needle rest

/-- First-match lookup in an association list (models Python `dict` read;
Python dicts have unique keys, which the write operation below maintains). -/
def alistLookup {α : Type} : List (Str × α) → Str → Option α
  | [], _ => none
  | (k, v) :: rest, key => if k = key then some v else alistLookup rest key

/-- Models Python `d[k] = v` on an insertion-ordered dict: an existing key is
overwritten in place, a new key is appended at the end. -/
def alistSet {α : Type} : List (Str × α) → Str → α → List (Str × α)
  | [], key, v => [(key, v)]
  | (k, w) :: rest, key, v =>
    if k = key then (key, v) :: rest else (k, w) :: alistSet rest key v

/-- Models Python `d.setdefault(k, v)`: inserts `k → v` only when `k` is
absent. -/
def alistSetdefault {α : Type} (d : List (Str × α)) (key : Str) (v : α) : List (Str × α) :=
  match alistLookup d key with
  | some _ => d
  | none => d ++ [(key, v)]

/-- Models Python `d.update(other)`: assigns every pair of `other` into `d`
in order, mutating `d` in place. -/
def dictUpdate (d : List (Str × Str)) : List (Str × Str) → List (Str × Str)
  | [] => d
  | (k, v) :: rest => dictUpdate (alistSet d k v) rest

/-!  ### Model of `urllib.parse.urlparse` as used by `crawl.py`

`extract_links` calls `urlparse(href)` and reads `.scheme`, `.netloc`,
`.path`, `.fragment` and `.hostname`.  The definitions below model CPython's
`urlsplit`/`urlparse` pipeline for those fields: scheme extraction at the
first `:` when the part before it is a valid scheme, netloc after a leading
`//` up to the first of `/?#`, fragment after the first `#`, query after the
first `?`, `;params` split off the last path segment, and `hostname` as the
lowercased host part of the netloc (after the last `@`, before the port,
bracket-aware). -/

/-- Characters permitted in a URL scheme (CPython `scheme_chars`). -/
def isSchemeChar (c : Char) : Bool := c.isAlpha || c.isDigit || c = '+' || c = '-' || c = '.'

/-- Result fields of the urlsplit step. -/
structure UrlSplit where
  scheme : Str
  netloc : Str
  path : Str
  query : Str
  fragment : Str
deriving DecidableEq

/-- Models the scheme-extraction step of CPython `urlsplit`: the text before
the first `:` becomes the (lowercased) scheme when it is nonempty, starts
with a letter and uses only scheme characters. -/
def splitScheme (url : Str) : Str × Str :=
  match breakAt ':' url with
  | (before, some rest) =>
    match before with
    | [] => ([], url)
    | c0 :: cs =>
      if c0.isAlpha && (c0 :: cs).all isSchemeChar then (lowerStr (c0 :: cs), rest)
      else ([], url)
  | (_, none) => ([], url)

/-- Models the netloc-extraction step: after a leading `//`, the netloc runs
up to the first `/`, `?` or `#`. -/
def splitNetloc (url : Str) : Str × Str :=
  match url with
  | '/' :: '/' :: rest => takeUntil (fun c => c = '/' || c = '?' || c = '#') rest
  | _ => ([], url)

/-- Models the fragment split: everything after the first `#`. -/
def splitFragment (url : Str) : Str × Str :=
  match breakAt '#' url with
  | (before, some frag) => (before, frag)
  | (_, none) => (url, [])

/-- Models the query split: everything after the first `?`. -/
def splitQuery (url : Str) : Str × Str :=
  match breakAt '?' url with
  | (before, some q) => (before, q)
  | (_, none) => (url, [])

/-- Models CPython `urlsplit` for the fields the crawler reads. -/
def urlsplitM (url : Str) : UrlSplit :=
  let s := splitScheme url
  let n := splitNetloc s.2
  let f := splitFragment n.2
  let q := splitQuery f.1
  { scheme := s.1, netloc := n.1, path := q.1, query := q.2, fragment := f.2 }

/-- Models CPython `_splitparams` guarded by `if ';' in path`: removes the
`;params` suffix of the last path segment, searching for `;` only at or
after the last `/`. -/
def pathParams (p : Str) : Str :=
  if strContains p ';' = false then p
  else if strContains p '/' = true then
    match breakAt '/' p.reverse with
    | (revSeg, some revPre) =>
      match breakAt ';' revSeg.reverse with
      | (seg, some _) => revPre.reverse ++ '/' :: seg
      | (_, none) => p
    | (_, none) => p
  else (breakAt ';' p).1

/-- Models the `hostname` property of a CPython parse result: the part of the
netloc after the last `@`, bracket-delimited or up to the first `:`,
lowercased (the empty result models Python `None`). -/
def hostnameOf (netloc : Str) : Str :=
  let hostinfo :=
    match breakAt '@' netloc.reverse with
    | (revH, some _) => revH.reverse
    | (_, none) => netloc
  let raw :=
    match breakAt '[' hostinfo with
    | (_, some rest) => (breakAt ']' rest).1
    | (_, none) => (breakAt ':' hostinfo).1
  lowerStr raw

/-- Parse-result fields of `urlparse` read by `extract_links`. -/
structure ParseResult where
  scheme : Str
  netloc : Str
  path : Str
  fragment : Str
  hostname : Str
deriving DecidableEq

/-- Models `urllib.parse.urlparse` for the fields the crawler reads:
`urlsplit`, then `;params` removed from the path, plus the `hostname`
property. -/
def urlparseM (url : Str) : ParseResult :=
  let u := urlsplitM url
  { scheme := u.scheme, netloc := u.netloc, path := pathParams u.path,
    fragment := u.fragment, hostname := hostnameOf u.netloc }

/-!  ### URL normalization (`extract_links` per-href logic) -/

/-- Outcome of handling one raw href in `extract_links`: skipped (falsy
href), classified malformed, or accepted with the fragment-stripped raw form
(the `links` key) and the canonical `clean_href`. -/
inductive HrefOutcome
  | skip
  | malformed (href : Str)
  | ok (raw clean : Str)
deriving DecidableEq

/-- Models the href salvage rules of `CrawlSite.extract_links`
(crawl.py lines 308-323): `//…` gains `https:`, a leading `/` is rooted at
the home host, `http:` becomes `https:`, a leading `#` is rooted at
`https://host/`, and a leading `..` is rooted at the host after stripping
leading dots (`lstrip('..')` strips dot characters). -/
def salvageHref (host href : Str) : Str :=
  if ("//".data).isPrefixOf href then "https:".data ++ href
  else if ("/".data).isPrefixOf href then "https://".data ++ host ++ href
  else if ("http:".data).isPrefixOf href then "https:".data ++ href.drop 5
  else if ("#".data).isPrefixOf href then "https://".data ++ host ++ "/".data ++ href
  else if ("..".data).isPrefixOf href then "https://".data ++ host ++ lstripChars ['.'] href
  else href

/-- Models the per-href handling of `CrawlSite.extract_links` (crawl.py
lines 304-352) through the construction of `clean_href`: falsy hrefs are
skipped; after salvage the href is parsed; an empty scheme or netloc is
malformed; the fragment is stripped from the stored raw href (Python removes
`'#' + fragment`, which occurs exactly once, at the first `#`); a path still
starting with `../` is re-rooted after `lstrip('../')` (dots and slashes);
the canonical form is `https://` + (hostname, else the home host) + (path,
else `/`). -/
def processHref (host href : Str) : HrefOutcome :=
  if href = [] then .skip
  else
    let h := salvageHref host href
    let parts := urlparseM h
    if parts.scheme = [] ∨ parts.netloc = [] then .malformed h
    else
      let raw := if parts.fragment = [] then h else (breakAt '#' h).1
      let hp0 := parts.path
      let hp := if ("../".data).isPrefixOf hp0 then '/' :: lstripChars ['.', '/'] hp0 else hp0
      let hn := parts.hostname
      let clean := "https://".data ++ (if hn = [] then host else hn) ++ (if hp = [] then ['/'] else hp)
      .ok raw clean

/-!  ### Data model: page records, crawl state, environment, event traces -/

/-- Network events of a crawl run: the rate-limit `wait()` call, a HEAD
probe, and a page GET. -/
inductive Event
  | wait
  | head (url : Str)
  | get (url : Str)
deriving DecidableEq

/-- Response to a HEAD request as read by `add_link`: the integer status and
the `content-type` header, which may be absent (Python `None`). -/
structure HeadResp where
  status : Int
  contentType : Option Str
deriving DecidableEq

/-- Response to a page GET as read by `extract_links`: the integer status,
the body, and the anchor `href` / image `src` attribute values the external
HTML parser finds in the body (an attribute may be absent, Python `None`). -/
structure GetResp where
  status : Int
  body : Str
  hrefs : List (Option Str)
  imgs : List (Option Str)
deriving DecidableEq

/-- One entry of the `pages` mapping (a `PageRecord`).  `last_visit` is
`none` when the dict key is absent (possible only for records loaded from a
session file); `mime_type` is `none` when the stored value is Python `None`
(a HEAD response without a `content-type` header) and `some []` for the
initial empty string. -/
structure PageRecord where
  last_visit : Option Int
  links : List (Str × Str)
  malformed : List Str
  status_code : Option Int
  images : List (Option Str)
  files : List Str
  mime_type : Option Str
  head_status : Option Int
  file_loc : Option Str
deriving DecidableEq

/-- Models the fresh record dict built in `add_link` (crawl.py lines
196-205): `last_visit` is the creation time plus the cache limit. -/
def newPage (now cacheLimit : Int) : PageRecord :=
  { last_visit := some (now + cacheLimit), links := [], malformed := [],
    status_code := none, images := [], files := [], mime_type := some [],
    head_status := none, file_loc := none }

/-- Mutable crawler state: the `pages` frontier mapping, the sitemap URL
list, and the `obey_robots` flag (which `load_robots` can clear). -/
structure CrawlState where
  pages : List (Str × PageRecord)
  sitemap : List Str
  obeyRobots : Bool
deriving DecidableEq

/-- Configuration and external collaborators: the home host, the cache
limit, the robots directive oracle (`rp.can_fetch` after `load_robots`), the
HTTP transport oracles (`None` models a protocol failure), the sitemap `loc`
parser oracle, `rp.site_maps()`, a timestamp per loop step, and the
file-archiving configuration with a content-hash oracle. -/
structure Env where
  host : Str
  cacheLimit : Int
  canFetch : Str → Bool
  headResp : Str → Option HeadResp
  getResp : Str → Option GetResp
  locs : Str → List Str
  siteMaps : Option (List Str)
  time : Nat → Int
  markup : Bool
  filesPath : Str
  gzipFiles : Bool
  hashHex : Str → Str

/-- Replaces the record stored for `k`. -/
def setPage (st : CrawlState) (k : Str) (r : PageRecord) : CrawlState :=
  { st with pages := alistSet st.pages k r }

/-- Applies `f` to the record stored for `k` (models in-place mutation of
`self.pages[k]`; every call site below has `k` present). -/
def updPage (st : CrawlState) (k : Str) (f : PageRecord → PageRecord) : CrawlState :=
  match alistLookup st.pages k with
  | none => st
  | some r => setPage st k (f r)

/-- Models the insert/reset arm of `add_link` (crawl.py lines 196-214): a
fresh record is stored, `wait()` runs, a HEAD probe is sent, and on a
response the record's `mime_type` and `head_status` are filled in. -/
def addLinkFetch (env : Env) (now : Int) (st : CrawlState) (href : Str) :
    CrawlState × List Event :=
  let st1 := setPage st href (newPage now env.cacheLimit)
  match env.headResp href with
  | none => (st1, [Event.wait, Event.head href])
  | some h =>
    let st2 := setPage st1 href
      { newPage now env.cacheLimit with mime_type := h.contentType, head_status := some h.status }
    (st2, [Event.wait, Event.head href])

/-- Models `CrawlSite.add_link` (crawl.py lines 184-214).  A href absent
from `pages` is inserted and HEAD-probed; a present href first gains
`last_visit` via `setdefault` (default: the cache limit) and is reset and
re-probed only when expired (`now - cache_limit > last_visit`). -/
def addLink (env : Env) (now : Int) (st : CrawlState) (href : Str) :
    CrawlState × List Event :=
  match alistLookup st.pages href with
  | none => addLinkFetch env now st href
  | some r =>
    let lv := r.last_visit.getD env.cacheLimit
    let st1 := setPage st href { r with last_visit := some lv }
    if now - env.cacheLimit > lv then addLinkFetch env now st1 href
    else (st1, [])

/-- Models the per-href loop of `extract_links` (crawl.py lines 302-352):
falsy hrefs are skipped, malformed hrefs are appended to the page's
`malformed` list, and accepted hrefs are recorded in the page's `links`
dict (via `setdefault`) before `add_link` runs on the canonical form. -/
def processLinks (env : Env) (now : Int) (target : Str) :
    CrawlState → List (Option Str) → CrawlState × List Event
  | st, [] => (st, [])
  | st, none :: rest => processLinks env now target st rest
  | st, some href :: rest =>
    match processHref env.host href with
    | .skip => processLinks env now target st rest
    | .malformed h =>
      let st1 := updPage st target (fun r => { r with malformed := r.malformed ++ [h] })
      processLinks env now target st1 rest
    | .ok raw clean =>
      let st1 := updPage st target (fun r => { r with links := alistSetdefault r.links raw clean })
      let a := addLink env now st1 clean
      let b := processLinks env now target a.1 rest
      (b.1, a.2 ++ b.2)

/-- Models the fetch-and-parse tail of `extract_links` (crawl.py lines
262-357): `wait()`, the GET (a `None` response aborts silently), the
`last_visit`/`status_code` stamp, the non-200 early return, the optional
body archiving (`file_loc` is set to the content-hash path; the source
actually stores a 1-tuple due to a trailing comma — modeled as the path
itself), the link loop, and the image `src` collection. -/
def extractFetch (env : Env) (now : Int) (st : CrawlState) (target : Str) :
    Except Unit CrawlState × List Event :=
  match env.getResp target with
  | none => (.ok st, [Event.wait, Event.get target])
  | some resp =>
    let st1 := updPage st target
      (fun r => { r with last_visit := some (now + env.cacheLimit), status_code := some resp.status })
    if resp.status ≠ 200 then (.ok st1, [Event.wait, Event.get target])
    else
      let st2 :=
        if env.markup then
          updPage st1 target (fun r =>
            { r with file_loc := some (env.filesPath ++ '/' ::
                (env.hashHex resp.body ++ ".html".data ++ (if env.gzipFiles then ".gz".data else []))) })
        else st1
      let a := processLinks env now target st2 resp.hrefs
      let st4 := updPage a.1 target (fun r => { r with images := r.images ++ resp.imgs })
      (.ok st4, Event.wait :: Event.get target :: a.2)

/-- Models `CrawlSite.extract_links` (crawl.py lines 250-357).  A missing
record raises `KeyError`; a `None` mime type raises `TypeError` at the
`'text/html' not in mime` test (both are `Except.error`); a non-HTML mime
type is skipped; a fetched (`status_code is not None`) and unexpired
(`last_visit > now`) record is skipped, reading `last_visit` directly
(`KeyError` when absent); otherwise the page is fetched. -/
def extractLinks (env : Env) (now : Int) (st : CrawlState) (target : Str) :
    Except Unit CrawlState × List Event :=
  match alistLookup st.pages target with
  | none => (.error (), [])
  | some r =>
    match r.mime_type with
    | none => (.error (), [])
    | some mime =>
      if hasSubstr ("text/html".data) mime = false then (.ok st, [])
      else
        match r.status_code with
        | none => extractFetch env now st target
        | some _ =>
          match r.last_visit with
          | none => (.error (), [])
          | some lv => if now < lv then (.ok st, []) else extractFetch env now st target

/-- Per-iteration guard outcome of the crawl loop. -/
inductive LoopDecision
  | skipExternal
  | skipCached
  | skipRobots
  | doExtract
  | crash
deriving DecidableEq

/-- Models the per-iteration guards of `CrawlSite.crawl` (crawl.py lines
232-242): a URL whose text does not start with `https://{host}` is skipped
as external; then a fetched, unexpired record is skipped as cached (reading
`last_visit` directly — `KeyError` when the field is absent); then a
robots-denied URL is skipped; otherwise `extract_links` runs. -/
def loopDecision (env : Env) (now : Int) (st : CrawlState) (url : Str) : LoopDecision :=
  if ("https://".data ++ env.host).isPrefixOf url = false then .skipExternal
  else
    match alistLookup st.pages url with
    | none => .crash
    | some r =>
      match r.last_visit with
      | none => .crash
      | some lv =>
        if now < lv ∧ r.status_code ≠ none then .skipCached
        else if st.obeyRobots = true ∧ env.canFetch url = false then .skipRobots
        else .doExtract

/-- Keys of the `pages` dict in insertion order (`list(self.pages.keys())`). -/
def pagesKeys (ps : List (Str × PageRecord)) : List Str := ps.map Prod.fst

/-- Models the `while idx < len(crawl_pages)` loop of `CrawlSite.crawl`
(crawl.py lines 226-245): the key snapshot is re-read after every
extraction, the index advances every iteration, and the loop ends when the
index reaches the snapshot length.  `fuel` bounds the number of iterations
(the properties below hold for every fuel). -/
def crawlLoop (env : Env) :
    Nat → Nat → CrawlState → List Str → Nat → Except Unit CrawlState × List Event
  | 0, _, st, _, _ => (.ok st, [])
  | fuel + 1, tick, st, keys, idx =>
    if h : idx < keys.length then
      let url := keys.get ⟨idx, h⟩
      match loopDecision env (env.time tick) st url with
      | .crash => (.error (), [])
      | .doExtract =>
        match extractLinks env (env.time tick) st url with
        | (.error e, tr) => (.error e, tr)
        | (.ok st1, tr) =>
          let next := crawlLoop env fuel (tick + 1) st1 (pagesKeys st1.pages) (idx + 1)
          (next.1, tr ++ next.2)
      | _ => crawlLoop env fuel (tick + 1) st keys (idx + 1)
    else (.ok st, [])

/-- Models `CrawlSite.crawl` (crawl.py lines 217-247): when `pages` is
empty, the home page `https://{host}/` is seeded through `add_link` (robots
permitting), then the loop drains the key list. -/
def crawl (env : Env) (fuel : Nat) (st : CrawlState) : Except Unit CrawlState × List Event :=
  let seedUrl := "https://".data ++ env.host ++ ['/']
  let seeded :=
    if st.pages = [] then
      if st.obeyRobots = false ∨ env.canFetch seedUrl = true then addLink env (env.time 0) st seedUrl
      else (st, [])
    else (st, [])
  let looped := crawlLoop env fuel 1 seeded.1 (pagesKeys seeded.1.pages) 0
  (looped.1, seeded.2 ++ looped.2)

/-- Folds `add_link` over a list of URLs (the sitemap `loc` loop). -/
def addLinks (env : Env) (now : Int) : CrawlState → List Str → CrawlState × List Event
  | st, [] => (st, [])
  | st, l :: rest =>
    let a := addLink env now st l
    let b := addLinks env now a.1 rest
    (b.1, a.2 ++ b.2)

/-- Models the body of `CrawlSite.load_sitemap` (crawl.py lines 175-181):
each sitemap URL is fetched with `get_req` (no `wait()` call); a `None`
response is passed to BeautifulSoup, which raises `TypeError`
(`Except.error`); otherwise every `<loc>` text is fed to `add_link`
unmodified. -/
def loadSitemapAux (env : Env) (now : Int) :
    CrawlState → List Str → Except Unit CrawlState × List Event
  | st, [] => (.ok st, [])
  | st, u :: rest =>
    match env.getResp u with
    | none => (.error (), [Event.get u])
    | some _ =>
      let a := addLinks env now st (env.locs u)
      let b := loadSitemapAux env now a.1 rest
      (b.1, Event.get u :: (a.2 ++ b.2))

/-- Models `CrawlSite.load_sitemap` (crawl.py lines 167-181): an empty
argument falls back to the stored sitemap list. -/
def loadSitemap (env : Env) (now : Int) (st : CrawlState) (mapUrl : List Str) :
    Except Unit CrawlState × List Event :=
  loadSitemapAux env now st (if mapUrl = [] then st.sitemap else mapUrl)

/-- Models `CrawlSite.load_robots` (crawl.py lines 128-164) for the default
robots location: `https://{host}/robots.txt` is fetched with `get_req`
directly (no `wait()` call); a `None` response clears `obey_robots`;
otherwise the directive set is parsed externally (the `canFetch` oracle),
`rp.site_maps()` replaces the sitemap list when present, and
`load_sitemap` runs (the crawl-delay bookkeeping has no modeled
observable and is elided). -/
def loadRobots (env : Env) (now : Int) (st : CrawlState) :
    Except Unit CrawlState × List Event :=
  let robotsUrl := "https://".data ++ env.host ++ "/robots.txt".data
  match env.getResp robotsUrl with
  | none => (.ok { st with obeyRobots := false }, [Event.get robotsUrl])
  | some _ =>
    let st1 :=
      match env.siteMaps with
      | none => st
      | some sm => { st with sitemap := sm }
    let next := loadSitemap env now st1 []
    (next.1, Event.get robotsUrl :: next.2)

/-- Models the header handling shared by `HTTPReq.head_req` and
`HTTPReq.get_req` (crawl.py lines 54-67): `headers.update(self.base_headers)`
mutates the caller-supplied dict (or the shared mutable default `{}`) in
place, and that same dict becomes the `Request` headers and the dict's
post-call state. -/
def reqHeaders (base headers : List (Str × Str)) : List (Str × Str) :=
  dictUpdate headers base

/-- True when an operation ended in an unhandled Python exception. -/
def isError {ε α : Type} : Except ε α → Bool
  | .error _ => true
  | .ok _ => false

/-- True for the network-request events (HEAD and GET). -/
def isReq : Event → Bool
  | .wait => false
  | .head _ => true
  | .get _ => true

/-- True for GET events. -/
def isGet : Event → Bool
  | .get _ => true
  | _ => false

/-- Characters that may appear in a hostname without affecting parsing:
everything except the netloc/hostname delimiters. -/
def hostCharOk (c : Char) : Bool :=
  !(c == '/' || c == '?' || c == '#' || c == ':' || c == '@' || c == '[')

/-- Characters that may appear in a canonical path without affecting
parsing: everything except the fragment/query/params delimiters. -/
def pathCharOk (c : Char) : Bool := !(c == '#' || c == '?' || c == ';')

/-- A hostname in the canonical form the normalizer itself produces:
nonempty, free of delimiters, and already lowercase. -/
def isCleanHost (h : Str) : Bool :=
  !h.isEmpty && h.all hostCharOk && (lowerStr h == h)

/-- A path in the canonical form the normalizer itself produces: it starts
with `/` and is free of delimiters. -/
def isCleanPath : Str → Bool
  | [] => false
  | c :: cs => (c == '/') && cs.all pathCharOk

/-- Checks that every request event in the trace is immediately preceded by
a `wait` event; the flag carries whether the previous event was a `wait`. -/
def wellPacedFrom : Bool → List Event → Bool
  | _, [] => true
  | prev, e :: rest => (!(isReq e) || prev) && wellPacedFrom (e == Event.wait) rest


/-!  ### Concrete instances used by the claim witnesses and counterexamples -/

/-- An empty crawl state (fresh run, no session). -/
def stEmpty : CrawlState := { pages := [], sitemap := [], obeyRobots := true }

/-- A URL whose host (`a.com.evil.org`) differs from the home host `a.com`
while its text still starts with `https://a.com`. -/
def uC1 : Str := "https://a.com.evil.org/".data

/-- A discovered, HTML, not-yet-fetched record. -/
def rC1 : PageRecord :=
  { last_visit := some 0, links := [], malformed := [], status_code := none,
    images := [], files := [], mime_type := some ("text/html".data),
    head_status := some 200, file_loc := none }

/-- Environment for the cross-host scenario: home host `a.com`, robots
permissive, all GETs answer 200 with an empty page. -/
def envC1 : Env :=
  { host := "a.com".data, cacheLimit := 10, canFetch := fun _ => true,
    headResp := fun _ => none,
    getResp := fun _ => some { status := 200, body := [], hrefs := [], imgs := [] },
    locs := fun _ => [], siteMaps := none, time := fun _ => 100,
    markup := false, filesPath := [], gzipFiles := false, hashHex := fun _ => [] }

/-- Frontier already containing the deceptive cross-host URL. -/
def stC1 : CrawlState := { pages := [(uC1, rC1)], sitemap := [], obeyRobots := false }

/-- In-host page URL for the cache-window scenario. -/
def uC2 : Str := "https://a.com/x".data

/-- A record fetched at time 0 with cache limit 10 (`last_visit = 10`). -/
def rC2 : PageRecord :=
  { last_visit := some 10, links := [], malformed := [], status_code := some 200,
    images := [], files := [], mime_type := some ("text/html".data),
    head_status := some 200, file_loc := none }

/-- Environment for the cache-window scenario (GET answers 404). -/
def envC2 : Env :=
  { host := "a.com".data, cacheLimit := 10, canFetch := fun _ => true,
    headResp := fun _ => none,
    getResp := fun _ => some { status := 404, body := [], hrefs := [], imgs := [] },
    locs := fun _ => [], siteMaps := none, time := fun _ => 0,
    markup := false, filesPath := [], gzipFiles := false, hashHex := fun _ => [] }

/-- Frontier holding the fetched record of the cache-window scenario. -/
def stC2 : CrawlState := { pages := [(uC2, rC2)], sitemap := [], obeyRobots := true }

/-- Sitemap URL with a query string in its `<loc>` entry. -/
def smC3 : Str := "https://a.com/sitemap.xml".data

/-- A raw sitemap `<loc>` value carrying a query string. -/
def locC3 : Str := "https://a.com/p?q=1".data

/-- Environment whose sitemap yields a query-carrying location. -/
def envC3 : Env :=
  { host := "a.com".data, cacheLimit := 10, canFetch := fun _ => true,
    headResp := fun _ => none,
    getResp := fun _ => some { status := 200, body := [], hrefs := [], imgs := [] },
    locs := fun _ => [locC3], siteMaps := none, time := fun _ => 0,
    markup := false, filesPath := [], gzipFiles := false, hashHex := fun _ => [] }

/-- Environment for the pacing counterexample (robots and sitemap fetches
succeed). -/
def envC4 : Env :=
  { host := "a.com".data, cacheLimit := 10, canFetch := fun _ => true,
    headResp := fun _ => none,
    getResp := fun _ => some { status := 200, body := [], hrefs := [], imgs := [] },
    locs := fun _ => [], siteMaps := none, time := fun _ => 0,
    markup := false, filesPath := [], gzipFiles := false, hashHex := fun _ => [] }

/-- A sitemap URL fetched by `load_sitemap`. -/
def smC4 : Str := "https://a.com/sitemap.xml".data

/-- URL discovered for the first time in the `last_visit` scenario. -/
def uC5 : Str := "https://a.com/p".data

/-- Environment with cache limit 5 for the `last_visit` scenario. -/
def envC5 : Env :=
  { host := "a.com".data, cacheLimit := 5, canFetch := fun _ => true,
    headResp := fun _ => none, getResp := fun _ => none,
    locs := fun _ => [], siteMaps := none, time := fun _ => 0,
    markup := false, filesPath := [], gzipFiles := false, hashHex := fun _ => [] }

/-- Robots-denied URL already present in the frontier. -/
def uC6 : Str := "https://a.com/p".data

/-- An expired, previously fetched record for the robots scenario. -/
def rC6 : PageRecord :=
  { last_visit := some 0, links := [], malformed := [], status_code := some 200,
    images := [], files := [], mime_type := some ("text/html".data),
    head_status := some 200, file_loc := none }

/-- Environment whose robots oracle denies everything. -/
def envC6 : Env :=
  { host := "a.com".data, cacheLimit := 10, canFetch := fun _ => false,
    headResp := fun _ => none, getResp := fun _ => none,
    locs := fun _ => [], siteMaps := none, time := fun _ => 100,
    markup := false, filesPath := [], gzipFiles := false, hashHex := fun _ => [] }

/-- Frontier holding the robots-denied record with robots compliance on. -/
def stC6 : CrawlState := { pages := [(uC6, rC6)], sitemap := [], obeyRobots := true }

/-- URL whose HEAD response carries no `content-type` header. -/
def uC7 : Str := "https://a.com/x".data

/-- Environment whose HEAD responses lack a `content-type` header. -/
def envC7 : Env :=
  { host := "a.com".data, cacheLimit := 10, canFetch := fun _ => true,
    headResp := fun _ => some { status := 200, contentType := none },
    getResp := fun _ => none, locs := fun _ => [], siteMaps := none,
    time := fun _ => 0, markup := false, filesPath := [], gzipFiles := false,
    hashHex := fun _ => [] }

/-- Frontier after discovering `uC7`: its `mime_type` is Python `None`. -/
def stC7 : CrawlState := (addLink envC7 0 stEmpty uC7).1

/-- In-host URL for the non-200 scenario. -/
def uC10 : Str := "https://a.com/y".data

/-- A discovered, HTML, never-fetched record for the non-200 scenario. -/
def rC10 : PageRecord :=
  { last_visit := some 0, links := [], malformed := [], status_code := none,
    images := [], files := [], mime_type := some ("text/html".data),
    head_status := some 200, file_loc := none }

/-- Frontier holding the never-fetched record of the non-200 scenario. -/
def stC10 : CrawlState := { pages := [(uC10, rC10)], sitemap := [], obeyRobots := true }

/-- Base headers of the crawler (`{'User-Agent': ua}`). -/
def baseC9 : List (Str × Str) := [("User-Agent".data, "ua".data)]

/-- A caller-supplied headers dict. -/
def callerC9 : List (Str × Str) := [("X-Test".data, "1".data)]

/-!  ### Basic lemmas about the string and dict helpers -/

theorem tableLookup_mem (t : List (Char × Char)) (c l : Char)
    (h : tableLookup t c = some l) : l ∈ t.map Prod.snd := by
  induction t with
  | nil => simp [tableLookup] at h
  | cons p rest ih =>
    obtain ⟨a, b⟩ := p
    simp only [tableLookup] at h
    by_cases hc : c = a
    · simp [hc] at h
      simp [h]
    · simp [hc] at h
      exact List.mem_cons_of_mem _ (ih h)

theorem lowerChar_keeps (c : Char) (h : c ≠ '?' ∧ c ≠ '#') :
    lowerChar c ≠ '?' ∧ lowerChar c ≠ '#' := by
  unfold lowerChar
  cases hl : tableLookup lowerTable c with
  | none => exact h
  | some l =>
    have hm := tableLookup_mem _ _ _ hl
    have hall : ∀ x ∈ lowerTable.map Prod.snd, x ≠ '?' ∧ x ≠ '#' := by decide
    exact hall l hm

theorem strContains_iff (l : Str) (c : Char) : strContains l c = true ↔ c ∈ l := by
  induction l with
  | nil => simp [strContains]
  | cons x xs ih =>
    simp only [strContains, Bool.or_eq_true, beq_iff_eq, ih, List.mem_cons]
    constructor
    · rintro (h | h)
      · exact Or.inl h.symm
      · exact Or.inr h
    · rintro (h | h)
      · exact Or.inl h.symm
      · exact Or.inr h

theorem strContains_false (l : Str) (c : Char) :
    strContains l c = false ↔ c ∉ l := by
  rw [← strContains_iff]
  simp

theorem mem_breakAt_fst (c : Char) (l : Str) (x : Char)
    (h : x ∈ (breakAt c l).1) : x ∈ l ∧ x ≠ c := by
  induction l with
  | nil => simp [breakAt] at h
  | cons y ys ih =>
    simp only [breakAt] at h
    by_cases hy : y = c
    · simp [hy] at h
    · simp only [if_neg hy] at h
      rcases List.mem_cons.mp h with h1 | h2
      · subst h1
        exact ⟨List.mem_cons_self _ _, hy⟩
      · obtain ⟨hm, hne⟩ := ih h2
        exact ⟨List.mem_cons_of_mem _ hm, hne⟩

theorem mem_breakAt_snd (c : Char) (l : Str) (r : Str) (x : Char)
    (hr : (breakAt c l).2 = some r) (h : x ∈ r) : x ∈ l := by
  induction l generalizing r with
  | nil => simp [breakAt] at hr
  | cons y ys ih =>
    simp only [breakAt] at hr
    by_cases hy : y = c
    · simp [hy] at hr
      subst hr
      exact List.mem_cons_of_mem _ h
    · simp only [if_neg hy] at hr
      exact List.mem_cons_of_mem _ (ih r hr h)

theorem breakAt_not_mem (c : Char) (l : Str) (h : c ∉ l) :
    breakAt c l = (l, none) := by
  induction l with
  | nil => rfl
  | cons y ys ih =>
    have hy : y ≠ c := fun he => h (he ▸ List.mem_cons_self _ _)
    have hys : c ∉ ys := fun hm => h (List.mem_cons_of_mem _ hm)
    simp [breakAt, hy, ih hys]

theorem mem_takeUntil_fst (p : Char → Bool) (l : Str) (x : Char)
    (h : x ∈ (takeUntil p l).1) : x ∈ l ∧ p x = false := by
  induction l with
  | nil => simp [takeUntil] at h
  | cons y ys ih =>
    simp only [takeUntil] at h
    by_cases hy : p y = true
    · simp [hy] at h
    · simp only [Bool.not_eq_true] at hy
      simp only [hy, Bool.false_eq_true, if_false] at h
      rcases List.mem_cons.mp h with h1 | h2
      · subst h1
        exact ⟨List.mem_cons_self _ _, hy⟩
      · obtain ⟨hm, hp⟩ := ih h2
        exact ⟨List.mem_cons_of_mem _ hm, hp⟩

theorem takeUntil_app (p : Char → Bool) (a : Str) (c : Char) (b : Str)
    (ha : ∀ x ∈ a, p x = false) (hc : p c = true) :
    takeUntil p (a ++ c :: b) = (a, c :: b) := by
  induction a with
  | nil => simp [takeUntil, hc]
  | cons y ys ih =>
    have hy : p y = false := ha y (List.mem_cons_self _ _)
    have hys : ∀ x ∈ ys, p x = false := fun x hx => ha x (List.mem_cons_of_mem _ hx)
    simp [takeUntil, hy, ih hys]

theorem alistLookup_set_self {α : Type} (d : List (Str × α)) (k : Str) (v : α) :
    alistLookup (alistSet d k v) k = some v := by
  induction d with
  | nil => simp [alistSet, alistLookup]
  | cons p rest ih =>
    obtain ⟨k1, v1⟩ := p
    by_cases hk : k1 = k
    · simp [alistSet, alistLookup, hk]
    · simp [alistSet, alistLookup, hk, ih]

theorem alistLookup_set_ne {α : Type} (d : List (Str × α)) (k k2 : Str) (v : α)
    (h : k2 ≠ k) : alistLookup (alistSet d k v) k2 = alistLookup d k2 := by
  have hne : k ≠ k2 := fun he => h he.symm
  induction d with
  | nil => simp [alistSet, alistLookup, hne]
  | cons p rest ih =>
    obtain ⟨k1, v1⟩ := p
    by_cases hk : k1 = k
    · subst hk
      simp [alistSet, alistLookup, hne]
    · simp [alistSet, alistLookup, hk, ih]

theorem alistLookup_eq_none_of_not_mem {α : Type} (d : List (Str × α)) (k : Str)
    (h : k ∉ d.map Prod.fst) : alistLookup d k = none := by
  induction d with
  | nil => rfl
  | cons p rest ih =>
    obtain ⟨k1, v1⟩ := p
    simp only [List.map_cons, List.mem_cons] at h
    push_neg at h
    simp only [alistLookup]
    rw [if_neg (fun he => h.1 he.symm)]
    exact ih h.2

theorem setPage_lookup_self (st : CrawlState) (k : Str) (r : PageRecord) :
    alistLookup (setPage st k r).pages k = some r := alistLookup_set_self _ _ _

theorem setPage_lookup_ne (st : CrawlState) (k k2 : Str) (r : PageRecord)
    (h : k2 ≠ k) : alistLookup (setPage st k r).pages k2 = alistLookup st.pages k2 :=
  alistLookup_set_ne _ _ _ _ h

theorem updPage_lookup_self (st : CrawlState) (k : Str) (f : PageRecord → PageRecord) :
    alistLookup (updPage st k f).pages k = (alistLookup st.pages k).map f := by
  unfold updPage
  cases h : alistLookup st.pages k with
  | none => simp [h]
  | some r => simp [setPage_lookup_self]

theorem updPage_lookup_ne (st : CrawlState) (k k2 : Str) (f : PageRecord → PageRecord)
    (h : k2 ≠ k) : alistLookup (updPage st k f).pages k2 = alistLookup st.pages k2 := by
  unfold updPage
  cases hx : alistLookup st.pages k with
  | none => rfl
  | some r => exact setPage_lookup_ne _ _ _ _ h

/-!  ### Trace-shape lemmas -/

theorem addLinkFetch_trace (env : Env) (now : Int) (st : CrawlState) (href : Str) :
    (addLinkFetch env now st href).2 = [Event.wait, Event.head href] := by
  unfold addLinkFetch
  cases env.headResp href <;> rfl

theorem addLink_trace (env : Env) (now : Int) (st : CrawlState) (href : Str) :
    (addLink env now st href).2 = [] ∨
    (addLink env now st href).2 = [Event.wait, Event.head href] := by
  unfold addLink
  cases alistLookup st.pages href with
  | none => exact Or.inr (addLinkFetch_trace _ _ _ _)
  | some r =>
    dsimp only
    split
    · exact Or.inr (addLinkFetch_trace _ _ _ _)
    · exact Or.inl rfl

theorem addLink_no_get (env : Env) (now : Int) (st : CrawlState) (href u : Str) :
    Event.get u ∉ (addLink env now st href).2 := by
  rcases addLink_trace env now st href with h | h <;> rw [h] <;> simp

theorem addLinks_no_get (env : Env) (now : Int) (ls : List Str) (st : CrawlState) (u : Str) :
    Event.get u ∉ (addLinks env now st ls).2 := by
  induction ls generalizing st with
  | nil => simp [addLinks]
  | cons l rest ih =>
    simp only [addLinks, List.mem_append]
    rintro (h | h)
    · exact addLink_no_get env now st l u h
    · exact ih _ h

theorem processLinks_no_get (env : Env) (now : Int) (target : Str)
    (hrefs : List (Option Str)) (st : CrawlState) (u : Str) :
    Event.get u ∉ (processLinks env now target st hrefs).2 := by
  induction hrefs generalizing st with
  | nil => simp [processLinks]
  | cons h0 rest ih =>
    cases h0 with
    | none => exact ih st
    | some href =>
      simp only [processLinks]
      cases processHref env.host href with
      | skip => exact ih st
      | malformed h => exact ih _
      | ok raw clean =>
        simp only [List.mem_append]
        rintro (h | h)
        · exact addLink_no_get env now _ clean u h
        · exact ih _ h

theorem extractFetch_get_mem (env : Env) (now : Int) (st : CrawlState) (target u : Str)
    (h : Event.get u ∈ (extractFetch env now st target).2) : u = target := by
  unfold extractFetch at h
  split at h
  · simp at h
    exact h
  · dsimp only at h
    split at h
    · simp at h
      exact h
    · dsimp only at h
      simp only [List.mem_cons] at h
      rcases h with h | h | h
      · exact absurd h (by simp)
      · exact Event.get.inj h
      · exact absurd h (processLinks_no_get env now target _ _ u)

theorem extractLinks_get_mem (env : Env) (now : Int) (st : CrawlState) (target u : Str)
    (h : Event.get u ∈ (extractLinks env now st target).2) : u = target := by
  unfold extractLinks at h
  split at h
  · simp at h
  · split at h
    · simp at h
    · split at h
      · simp at h
      · split at h
        · exact extractFetch_get_mem env now st target u h
        · split at h
          · simp at h
          · split at h
            · simp at h
            · exact extractFetch_get_mem env now st target u h

/-!  ### Rate-limit pacing lemmas -/

theorem wellPacedFrom_mono (l : List Event) (b : Bool)
    (h : wellPacedFrom false l = true) : wellPacedFrom b l = true := by
  cases l with
  | nil => rfl
  | cons e rest =>
    simp only [wellPacedFrom, Bool.and_eq_true, Bool.or_eq_true] at h ⊢
    obtain ⟨h1, h2⟩ := h
    refine ⟨?_, h2⟩
    rcases h1 with h1 | h1
    · exact Or.inl h1
    · exact absurd h1 (by simp)

theorem wellPacedFrom_append (a c : List Event) (b : Bool)
    (ha : wellPacedFrom b a = true) (hc : wellPacedFrom false c = true) :
    wellPacedFrom b (a ++ c) = true := by
  induction a generalizing b with
  | nil => exact wellPacedFrom_mono c b hc
  | cons e rest ih =>
    simp only [List.cons_append, wellPacedFrom, Bool.and_eq_true] at ha ⊢
    exact ⟨ha.1, ih _ ha.2⟩

theorem wellPacedFrom_wait_get (u : Str) (tail : List Event) :
    wellPacedFrom false (Event.wait :: Event.get u :: tail) = wellPacedFrom false tail := rfl

theorem addLink_wellPaced (env : Env) (now : Int) (st : CrawlState) (href : Str) :
    wellPacedFrom false (addLink env now st href).2 = true := by
  rcases addLink_trace env now st href with h | h <;> rw [h] <;> rfl

theorem addLinks_wellPaced (env : Env) (now : Int) (ls : List Str) (st : CrawlState) :
    wellPacedFrom false (addLinks env now st ls).2 = true := by
  induction ls generalizing st with
  | nil => rfl
  | cons l rest ih =>
    exact wellPacedFrom_append _ _ _ (addLink_wellPaced env now st l) (ih _)

theorem processLinks_wellPaced (env : Env) (now : Int) (target : Str)
    (hrefs : List (Option Str)) (st : CrawlState) :
    wellPacedFrom false (processLinks env now target st hrefs).2 = true := by
  induction hrefs generalizing st with
  | nil => rfl
  | cons h0 rest ih =>
    cases h0 with
    | none => exact ih st
    | some href =>
      simp only [processLinks]
      cases processHref env.host href with
      | skip => exact ih st
      | malformed h => exact ih _
      | ok raw clean =>
        dsimp only
        exact wellPacedFrom_append _ _ _ (addLink_wellPaced env now _ clean) (ih _)

theorem extractFetch_wellPaced (env : Env) (now : Int) (st : CrawlState) (target : Str) :
    wellPacedFrom false (extractFetch env now st target).2 = true := by
  unfold extractFetch
  split
  · rfl
  · dsimp only
    split
    · rfl
    · dsimp only
      rw [wellPacedFrom_wait_get]
      exact processLinks_wellPaced env now target _ _

theorem extractLinks_wellPaced (env : Env) (now : Int) (st : CrawlState) (target : Str) :
    wellPacedFrom false (extractLinks env now st target).2 = true := by
  unfold extractLinks
  split
  · rfl
  · split
    · rfl
    · split
      · rfl
      · split
        · exact extractFetch_wellPaced env now st target
        · split
          · rfl
          · split
            · rfl
            · exact extractFetch_wellPaced env now st target

theorem crawlLoop_wellPaced (env : Env) (fuel tick : Nat) (st : CrawlState)
    (keys : List Str) (idx : Nat) :
    wellPacedFrom false (crawlLoop env fuel tick st keys idx).2 = true := by
  induction fuel generalizing tick st keys idx with
  | zero => rfl
  | succ fuel ih =>
    unfold crawlLoop
    split
    · rename_i hlt
      dsimp only
      split
      · rfl
      · split
        · rename_i e tr heq
          have hx := extractLinks_wellPaced env (env.time tick) st (keys.get ⟨idx, hlt⟩)
          rw [heq] at hx
          exact hx
        · dsimp only
          rename_i st1 tr heq
          have hx := extractLinks_wellPaced env (env.time tick) st (keys.get ⟨idx, hlt⟩)
          rw [heq] at hx
          exact wellPacedFrom_append _ _ _ hx (ih _ _ _ _)
      · exact ih _ _ _ _
    · rfl

theorem crawl_wellPaced (env : Env) (fuel : Nat) (st : CrawlState) :
    wellPacedFrom false (crawl env fuel st).2 = true := by
  unfold crawl
  dsimp only
  split
  · split
    · exact wellPacedFrom_append _ _ _ (addLink_wellPaced env _ st _)
        (crawlLoop_wellPaced env fuel 1 _ _ 0)
    · exact crawlLoop_wellPaced env fuel 1 _ _ 0
  · exact crawlLoop_wellPaced env fuel 1 _ _ 0

/-!  ### Frontier-membership and field-preservation lemmas -/

theorem addLinkFetch_lookup_ne (env : Env) (now : Int) (st : CrawlState) (href k : Str)
    (he : k ≠ href) :
    alistLookup (addLinkFetch env now st href).1.pages k = alistLookup st.pages k := by
  unfold addLinkFetch
  cases env.headResp href with
  | none =>
    dsimp only
    exact setPage_lookup_ne _ _ _ _ he
  | some hd =>
    dsimp only
    rw [setPage_lookup_ne _ _ _ _ he]
    exact setPage_lookup_ne _ _ _ _ he

theorem addLinkFetch_lookup_self (env : Env) (now : Int) (st : CrawlState) (href : Str) :
    (alistLookup (addLinkFetch env now st href).1.pages href).isSome = true := by
  unfold addLinkFetch
  cases env.headResp href with
  | none =>
    dsimp only
    rw [setPage_lookup_self]
    rfl
  | some hd =>
    dsimp only
    rw [setPage_lookup_self]
    rfl

theorem addLink_lookup_isSome (env : Env) (now : Int) (st : CrawlState) (href : Str) :
    (alistLookup (addLink env now st href).1.pages href).isSome = true := by
  unfold addLink
  cases alistLookup st.pages href with
  | none => exact addLinkFetch_lookup_self env now st href
  | some r =>
    dsimp only
    split
    · exact addLinkFetch_lookup_self env now _ href
    · rw [setPage_lookup_self]
      rfl

theorem addLink_preserve (env : Env) (now : Int) (st : CrawlState) (href k : Str)
    (r : PageRecord) (lv : Int)
    (hk : alistLookup st.pages k = some r) (hlv : r.last_visit = some lv)
    (hfresh : ¬ now - env.cacheLimit > lv) :
    ∃ r1, alistLookup (addLink env now st href).1.pages k = some r1 ∧
      r1.last_visit = some lv ∧ r1.status_code = r.status_code ∧
      r1.mime_type = r.mime_type := by
  by_cases he : k = href
  · subst he
    unfold addLink
    rw [hk]
    dsimp only
    rw [hlv]
    dsimp only [Option.getD]
    rw [if_neg hfresh]
    refine ⟨{ r with last_visit := some lv }, ?_, rfl, rfl, rfl⟩
    exact setPage_lookup_self _ _ _
  · unfold addLink
    cases alistLookup st.pages href with
    | none =>
      refine ⟨r, ?_, hlv, rfl, rfl⟩
      rw [addLinkFetch_lookup_ne env now st href k he]
      exact hk
    | some r2 =>
      dsimp only
      split
      · refine ⟨r, ?_, hlv, rfl, rfl⟩
        rw [addLinkFetch_lookup_ne env now _ href k he]
        rw [setPage_lookup_ne _ _ _ _ he]
        exact hk
      · refine ⟨r, ?_, hlv, rfl, rfl⟩
        rw [setPage_lookup_ne _ _ _ _ he]
        exact hk

theorem processLinks_preserve (env : Env) (now : Int) (target : Str)
    (hrefs : List (Option Str)) (st : CrawlState) (k : Str)
    (r : PageRecord) (lv : Int)
    (hk : alistLookup st.pages k = some r) (hlv : r.last_visit = some lv)
    (hfresh : ¬ now - env.cacheLimit > lv) :
    ∃ r1, alistLookup (processLinks env now target st hrefs).1.pages k = some r1 ∧
      r1.last_visit = some lv ∧ r1.status_code = r.status_code ∧
      r1.mime_type = r.mime_type := by
  induction hrefs generalizing st r with
  | nil => exact ⟨r, hk, hlv, rfl, rfl⟩
  | cons h0 rest ih =>
    cases h0 with
    | none => exact ih st r hk hlv
    | some href =>
      simp only [processLinks]
      cases processHref env.host href with
      | skip => exact ih st r hk hlv
      | malformed h =>
        by_cases he : k = target
        · subst he
          have h2 : alistLookup (updPage st k
              (fun r => { r with malformed := r.malformed ++ [h] })).pages k
              = some { r with malformed := r.malformed ++ [h] } := by
            rw [updPage_lookup_self, hk]
            rfl
          exact ih _ { r with malformed := r.malformed ++ [h] } h2 hlv
        · have h2 : alistLookup (updPage st target
              (fun r => { r with malformed := r.malformed ++ [h] })).pages k = some r := by
            rw [updPage_lookup_ne _ _ _ _ he]
            exact hk
          exact ih _ _ h2 hlv
      | ok raw clean =>
        dsimp only
        have step1 : ∃ r2, alistLookup (updPage st target
            (fun r => { r with links := alistSetdefault r.links raw clean })).pages k
            = some r2 ∧ r2.last_visit = some lv ∧ r2.status_code = r.status_code ∧
            r2.mime_type = r.mime_type := by
          by_cases he : k = target
          · subst he
            refine ⟨{ r with links := alistSetdefault r.links raw clean }, ?_, hlv, rfl, rfl⟩
            rw [updPage_lookup_self, hk]
            rfl
          · refine ⟨r, ?_, hlv, rfl, rfl⟩
            rw [updPage_lookup_ne _ _ _ _ he]
            exact hk
        obtain ⟨r2, hk2, hlv2, hsc2, hm2⟩ := step1
        obtain ⟨r3, hk3, hlv3, hsc3, hm3⟩ :=
          addLink_preserve env now _ clean k r2 lv hk2 hlv2 hfresh
        obtain ⟨r4, hk4, hlv4, hsc4, hm4⟩ := ih _ r3 hk3 hlv3
        exact ⟨r4, hk4, hlv4, by rw [hsc4, hsc3, hsc2], by rw [hm4, hm3, hm2]⟩

/-!  ### Stamping and loop-guard lemmas -/

theorem extractFetch_trace_shape (env : Env) (now : Int) (st : CrawlState) (target : Str) :
    ∃ tr, (extractFetch env now st target).2 = Event.wait :: Event.get target :: tr := by
  unfold extractFetch
  split
  · exact ⟨[], rfl⟩
  · dsimp only
    split
    · exact ⟨[], rfl⟩
    · dsimp only
      exact ⟨_, rfl⟩

theorem extractFetch_stamp (env : Env) (now : Int) (st : CrawlState) (target : Str)
    (r : PageRecord) (resp : GetResp)
    (hk : alistLookup st.pages target = some r)
    (hresp : env.getResp target = some resp)
    (hC : 0 ≤ env.cacheLimit) :
    ∃ st1 r1, (extractFetch env now st target).1 = Except.ok st1 ∧
      alistLookup st1.pages target = some r1 ∧
      r1.last_visit = some (now + env.cacheLimit) ∧
      r1.status_code = some resp.status ∧
      r1.mime_type = r.mime_type := by
  unfold extractFetch
  rw [hresp]
  dsimp only
  have hstamp : alistLookup (updPage st target (fun r =>
      { r with last_visit := some (now + env.cacheLimit),
               status_code := some resp.status })).pages target
      = some { r with last_visit := some (now + env.cacheLimit),
                      status_code := some resp.status } := by
    rw [updPage_lookup_self, hk]
    rfl
  split
  · exact ⟨_, _, rfl, hstamp, rfl, rfl, rfl⟩
  · have hfresh : ¬ now - env.cacheLimit > now + env.cacheLimit := by omega
    have hstep2 : ∃ r2,
        alistLookup (if env.markup then
          updPage (updPage st target (fun r =>
            { r with last_visit := some (now + env.cacheLimit),
                     status_code := some resp.status })) target (fun r =>
            { r with file_loc := some (env.filesPath ++ '/' ::
                (env.hashHex resp.body ++ ".html".data ++
                  (if env.gzipFiles then ".gz".data else []))) })
          else updPage st target (fun r =>
            { r with last_visit := some (now + env.cacheLimit),
                     status_code := some resp.status })).pages target = some r2 ∧
        r2.last_visit = some (now + env.cacheLimit) ∧
        r2.status_code = some resp.status ∧ r2.mime_type = r.mime_type := by
      by_cases hm : env.markup
      · rw [if_pos hm, updPage_lookup_self, hstamp]
        exact ⟨_, rfl, rfl, rfl, rfl⟩
      · rw [if_neg hm]
        exact ⟨_, hstamp, rfl, rfl, rfl⟩
    obtain ⟨r2, hk2, hlv2, hsc2, hm2⟩ := hstep2
    obtain ⟨r3, hk3, hlv3, hsc3, hm3⟩ :=
      processLinks_preserve env now target resp.hrefs _ target r2 (now + env.cacheLimit)
        hk2 hlv2 hfresh
    refine ⟨_, { r3 with images := r3.images ++ resp.imgs }, rfl, ?_, hlv3, ?_, ?_⟩
    · rw [updPage_lookup_self, hk3]
      rfl
    · show r3.status_code = some resp.status
      rw [hsc3, hsc2]
    · show r3.mime_type = r.mime_type
      rw [hm3, hm2]

theorem crawlLoop_skip (env : Env) (fuel tick : Nat) (st : CrawlState) (keys : List Str)
    (idx : Nat) (hlt : idx < keys.length)
    (h1 : loopDecision env (env.time tick) st (keys.get ⟨idx, hlt⟩) ≠ LoopDecision.crash)
    (h2 : loopDecision env (env.time tick) st (keys.get ⟨idx, hlt⟩) ≠ LoopDecision.doExtract) :
    crawlLoop env (fuel + 1) tick st keys idx
      = crawlLoop env fuel (tick + 1) st keys (idx + 1) := by
  conv_lhs => unfold crawlLoop
  rw [dif_pos hlt]
  dsimp only
  split
  · rename_i heq
    exact absurd heq h1
  · rename_i heq
    exact absurd heq h2
  · rfl

theorem loopDecision_doExtract_inHost (env : Env) (now : Int) (st : CrawlState) (url : Str)
    (h : loopDecision env now st url = LoopDecision.doExtract) :
    ("https://".data ++ env.host).isPrefixOf url = true := by
  unfold loopDecision at h
  by_cases hp : ("https://".data ++ env.host).isPrefixOf url = false
  · rw [if_pos hp] at h
    exact absurd h (by simp)
  · simpa using hp

theorem crawlLoop_get_inHost (env : Env) (fuel tick : Nat) (st : CrawlState)
    (keys : List Str) (idx : Nat) (u : Str)
    (h : Event.get u ∈ (crawlLoop env fuel tick st keys idx).2) :
    ("https://".data ++ env.host).isPrefixOf u = true := by
  induction fuel generalizing tick st keys idx with
  | zero => simp [crawlLoop] at h
  | succ fuel ih =>
    unfold crawlLoop at h
    split at h
    · rename_i hlt
      dsimp only at h
      split at h
      · simp at h
      · rename_i hdec
        split at h
        · rename_i e tr heq
          have hm : Event.get u ∈ (extractLinks env (env.time tick) st
              (keys.get ⟨idx, hlt⟩)).2 := by
            rw [heq]
            exact h
          have hu := extractLinks_get_mem env (env.time tick) st _ u hm
          rw [hu]
          exact loopDecision_doExtract_inHost env (env.time tick) st _ hdec
        · rename_i st1 tr heq
          dsimp only at h
          rcases List.mem_append.mp h with h | h
          · have hm : Event.get u ∈ (extractLinks env (env.time tick) st
                (keys.get ⟨idx, hlt⟩)).2 := by
              rw [heq]
              exact h
            have hu := extractLinks_get_mem env (env.time tick) st _ u hm
            rw [hu]
            exact loopDecision_doExtract_inHost env (env.time tick) st _ hdec
          · exact ih _ _ _ _ h
      · exact ih _ _ _ _ h
    · simp at h

/-!  ### Claim theorems -/

/-- C1 (corrected).  The crawl loop's external-link guard is a string
test, not a host comparison: the loop issues a GET for the frontier URL
`https://a.com.evil.org/` although its parsed host differs from the home
host `a.com`, because its text starts with `https://a.com`. -/
theorem C1_counterexample :
    (urlparseM uC1).hostname ≠ envC1.host ∧ Event.get uC1 ∈ (crawl envC1 2 stC1).2 := by
  decide

/-- C1 (amended).  Every discovered URL is inserted into the frontier by
`add_link`, a newly discovered URL receives a `wait`+HEAD probe, a URL whose
text does not start with `https://{host}` is skipped as external by the loop
guard, and every GET the crawl loop issues targets a URL whose text starts
with `https://{host}` (the skip criterion is this string-prefix test, not
host equality). -/
theorem C1_cross_host :
    (∀ env : Env, ∀ now : Int, ∀ st : CrawlState, ∀ href : Str,
      (alistLookup (addLink env now st href).1.pages href).isSome = true) ∧
    (∀ env : Env, ∀ now : Int, ∀ st : CrawlState, ∀ href : Str,
      alistLookup st.pages href = none →
        (addLink env now st href).2 = [Event.wait, Event.head href]) ∧
    (∀ env : Env, ∀ now : Int, ∀ st : CrawlState, ∀ url : Str,
      ("https://".data ++ env.host).isPrefixOf url = false →
        loopDecision env now st url = LoopDecision.skipExternal) ∧
    (∀ env : Env, ∀ fuel tick : Nat, ∀ st : CrawlState, ∀ keys : List Str, ∀ idx : Nat,
      ∀ u : Str, Event.get u ∈ (crawlLoop env fuel tick st keys idx).2 →
        ("https://".data ++ env.host).isPrefixOf u = true) := by
  refine ⟨addLink_lookup_isSome, ?_, ?_, ?_⟩
  · intro env now st href h
    unfold addLink
    rw [h]
    exact addLinkFetch_trace env now st href
  · intro env now st url h
    unfold loopDecision
    rw [if_pos h]
  · intro env fuel tick st keys idx u h
    exact crawlLoop_get_inHost env fuel tick st keys idx u h

/-- C1 witness: a fresh URL receives exactly the `wait`+HEAD trace, and the
GET the loop issues in the concrete cross-host run indeed starts with
`https://a.com`. -/
theorem C1_cross_host_witness :
    (addLink envC1 100 stC1 ("https://b.org/".data)).2
      = [Event.wait, Event.head ("https://b.org/".data)] ∧
    ("https://".data ++ envC1.host).isPrefixOf uC1 = true :=
  ⟨C1_cross_host.2.1 envC1 100 stC1 ("https://b.org/".data) (by decide),
   C1_cross_host.2.2.2 envC1 2 1 stC1 (pagesKeys stC1.pages) 0 uC1 (by decide)⟩

/-- C2 (confirmed).  For a record whose successful fetch at time `t`
stamped `last_visit = t + C` (an HTML mime type and a recorded status): a
call before `t + C` is a no-op with no events; a call at or after `t + C`
issues `wait` followed by the GET; when the GET answers, the record is
re-stamped to `now + C` with the new status; and with `C = 0` every call at
or after the fetch time re-fetches. -/
theorem C2_cache_window (env : Env) (st : CrawlState) (u : Str) (r : PageRecord)
    (t now : Int) (m : Str) (s : Int)
    (hr : alistLookup st.pages u = some r)
    (hm : r.mime_type = some m)
    (hhtml : hasSubstr ("text/html".data) m = true)
    (hs : r.status_code = some s)
    (hlv : r.last_visit = some (t + env.cacheLimit)) :
    (now < t + env.cacheLimit → extractLinks env now st u = (Except.ok st, [])) ∧
    (t + env.cacheLimit ≤ now →
      ∃ tr, (extractLinks env now st u).2 = Event.wait :: Event.get u :: tr) ∧
    (t + env.cacheLimit ≤ now → 0 ≤ env.cacheLimit →
      ∀ resp, env.getResp u = some resp →
        ∃ st1 r1, (extractLinks env now st u).1 = Except.ok st1 ∧
          alistLookup st1.pages u = some r1 ∧
          r1.last_visit = some (now + env.cacheLimit) ∧
          r1.status_code = some resp.status) ∧
    (env.cacheLimit = 0 → t ≤ now →
      ∃ tr, (extractLinks env now st u).2 = Event.wait :: Event.get u :: tr) := by
  have hred : extractLinks env now st u
      = if now < t + env.cacheLimit then (Except.ok st, [])
        else extractFetch env now st u := by
    unfold extractLinks
    rw [hr]
    dsimp only
    rw [hm]
    dsimp only
    rw [if_neg (show ¬ hasSubstr ("text/html".data) m = false by simp [hhtml])]
    rw [hs]
    dsimp only
    rw [hlv]
  refine ⟨?_, ?_, ?_, ?_⟩
  · intro h
    rw [hred, if_pos h]
  · intro h
    rw [hred, if_neg (by omega)]
    exact extractFetch_trace_shape env now st u
  · intro h hC resp hresp
    rw [hred, if_neg (by omega)]
    obtain ⟨st1, r1, h1, h2, h3, h4, _⟩ := extractFetch_stamp env now st u r resp hr hresp hC
    exact ⟨st1, r1, h1, h2, h3, h4⟩
  · intro h0 hle
    rw [hred, if_neg (by omega)]
    exact extractFetch_trace_shape env now st u

/-- C2 witness: in the concrete scenario (fetch at 0, cache limit 10), a
call at time 5 is a no-op and a call at time 20 issues `wait` + GET. -/
theorem C2_cache_window_witness :
    extractLinks envC2 5 stC2 uC2 = (Except.ok stC2, []) ∧
    (extractLinks envC2 20 stC2 uC2).2 = [Event.wait, Event.get uC2] := by
  have h5 := C2_cache_window envC2 stC2 uC2 rC2 0 5 ("text/html".data) 200
    (by decide) (by decide) (by decide) (by decide) (by decide)
  have h20 := C2_cache_window envC2 stC2 uC2 rC2 0 20 ("text/html".data) 200
    (by decide) (by decide) (by decide) (by decide) (by decide)
  have hget := h20.2.1 (by decide)
  refine ⟨h5.1 (by decide), ?_⟩
  decide

/-- C4 (corrected): the counterexample.  The robots.txt GET of
`load_robots` and the sitemap GET of `load_sitemap` are issued with no
preceding `wait()` call. -/
theorem C4_counterexample :
    wellPacedFrom false (loadRobots envC4 0 stEmpty).2 = false ∧
    wellPacedFrom false (loadSitemapAux envC4 0 stEmpty [smC4]).2 = false := by
  decide

/-- C4 (amended).  `wait()` immediately precedes every request issued by
link discovery (`add_link`), page extraction (`extract_links`) and the
crawl loop including its seeding — but not the robots.txt and sitemap
fetches, which `load_robots`/`load_sitemap` issue without `wait()`. -/
theorem C4_wait_pacing :
    (∀ env : Env, ∀ now : Int, ∀ st : CrawlState, ∀ href : Str,
      wellPacedFrom false (addLink env now st href).2 = true) ∧
    (∀ env : Env, ∀ now : Int, ∀ st : CrawlState, ∀ u : Str,
      wellPacedFrom false (extractLinks env now st u).2 = true) ∧
    (∀ env : Env, ∀ fuel tick : Nat, ∀ st : CrawlState, ∀ keys : List Str, ∀ idx : Nat,
      wellPacedFrom false (crawlLoop env fuel tick st keys idx).2 = true) ∧
    (∀ env : Env, ∀ fuel : Nat, ∀ st : CrawlState,
      wellPacedFrom false (crawl env fuel st).2 = true) :=
  ⟨addLink_wellPaced, extractLinks_wellPaced, crawlLoop_wellPaced, crawl_wellPaced⟩

/-- C5 (corrected): the counterexample.  A record discovered at time 100
with cache limit 5 and never fetched has `last_visit = 105` (discovery time
plus cache limit), not the claimed sentinel value `cache_limit = 5`. -/
theorem C5_counterexample :
    (alistLookup (addLink envC5 100 stEmpty uC5).1.pages uC5).map PageRecord.last_visit
      = some (some 105) ∧
    (alistLookup (addLink envC5 100 stEmpty uC5).1.pages uC5).map PageRecord.status_code
      = some none ∧
    envC5.cacheLimit = 5 := by
  decide

/-- C5 (amended).  A newly discovered record gets
`last_visit = discovery time + cache_limit`; the bare `cache_limit` value is
only the `setdefault` default written into a record that lacks the field
(e.g. loaded from a session file); and a successful extraction stamps
`last_visit = fetch time + cache_limit`. -/
theorem C5_last_visit (env : Env) (now : Int) (st : CrawlState) (u : Str) :
    (alistLookup st.pages u = none →
      ∃ r1, alistLookup (addLink env now st u).1.pages u = some r1 ∧
        r1.last_visit = some (now + env.cacheLimit) ∧ r1.status_code = none) ∧
    (∀ r, alistLookup st.pages u = some r → r.last_visit = none →
      ¬ now - env.cacheLimit > env.cacheLimit →
      alistLookup (addLink env now st u).1.pages u
        = some { r with last_visit := some env.cacheLimit }) ∧
    (∀ r m resp, alistLookup st.pages u = some r → r.mime_type = some m →
      hasSubstr ("text/html".data) m = true → r.status_code = none →
      env.getResp u = some resp → 0 ≤ env.cacheLimit →
      ∃ st1 r1, (extractLinks env now st u).1 = Except.ok st1 ∧
        alistLookup st1.pages u = some r1 ∧
        r1.last_visit = some (now + env.cacheLimit)) := by
  refine ⟨?_, ?_, ?_⟩
  · intro h
    unfold addLink
    rw [h]
    unfold addLinkFetch
    cases hh : env.headResp u with
    | none =>
      dsimp only
      rw [setPage_lookup_self]
      exact ⟨_, rfl, rfl, rfl⟩
    | some hd =>
      dsimp only
      rw [setPage_lookup_self]
      exact ⟨_, rfl, rfl, rfl⟩
  · intro r hr hlv hfresh
    unfold addLink
    rw [hr]
    dsimp only
    rw [hlv]
    dsimp only [Option.getD]
    rw [if_neg hfresh]
    exact setPage_lookup_self _ _ _
  · intro r m resp hr hm hhtml hs hresp hC
    have hext : extractLinks env now st u = extractFetch env now st u := by
      unfold extractLinks
      rw [hr]
      dsimp only
      rw [hm]
      dsimp only
      rw [if_neg (show ¬ hasSubstr ("text/html".data) m = false by simp [hhtml])]
      rw [hs]
    rw [hext]
    obtain ⟨st1, r1, h1, h2, h3, _, _⟩ := extractFetch_stamp env now st u r resp hr hresp hC
    exact ⟨st1, r1, h1, h2, h3⟩

/-- C5 witness: discovering a fresh URL at time 100 with cache limit 5
yields `last_visit = 105`. -/
theorem C5_last_visit_witness :
    (alistLookup (addLink envC5 100 stEmpty uC5).1.pages uC5).map PageRecord.last_visit
      = some (some 105) := by
  obtain ⟨r1, h1, h2, h3⟩ := (C5_last_visit envC5 100 stEmpty uC5).1 (by decide)
  rw [h1]
  dsimp only [Option.map]
  rw [h2]
  decide

/-- C6 (corrected): the counterexample.  Discovery ignores robots: with
robots compliance on and `can_fetch` false for a URL already in the
frontier, re-discovering it while expired issues a `wait`+HEAD probe and
resets its record (the recorded `status_code` is wiped). -/
theorem C6_counterexample :
    envC6.canFetch uC6 = false ∧ stC6.obeyRobots = true ∧
    (alistLookup stC6.pages uC6).map PageRecord.status_code = some (some 200) ∧
    (addLink envC6 100 stC6 uC6).2 = [Event.wait, Event.head uC6] ∧
    (alistLookup (addLink envC6 100 stC6 uC6).1.pages uC6).map PageRecord.status_code
      = some none := by
  decide

/-- C6 (amended).  When robots compliance is on and `can_fetch` is false
for the current frontier URL (whose record has its `last_visit` field), the
loop iteration is exactly the skip: no events, no state change, no
`extract_links` call — the iteration reduces to the next one. -/
theorem C6_robots_skip (env : Env) (fuel tick : Nat) (st : CrawlState)
    (keys : List Str) (idx : Nat) (hlt : idx < keys.length) (r : PageRecord) (lv : Int)
    (hro : st.obeyRobots = true)
    (hcf : env.canFetch (keys.get ⟨idx, hlt⟩) = false)
    (hr : alistLookup st.pages (keys.get ⟨idx, hlt⟩) = some r)
    (hlv : r.last_visit = some lv) :
    crawlLoop env (fuel + 1) tick st keys idx
      = crawlLoop env fuel (tick + 1) st keys (idx + 1) := by
  have hdec : loopDecision env (env.time tick) st (keys.get ⟨idx, hlt⟩)
        = LoopDecision.skipExternal ∨
      loopDecision env (env.time tick) st (keys.get ⟨idx, hlt⟩)
        = LoopDecision.skipCached ∨
      loopDecision env (env.time tick) st (keys.get ⟨idx, hlt⟩)
        = LoopDecision.skipRobots := by
    unfold loopDecision
    split
    · exact Or.inl rfl
    · rw [hr]
      dsimp only
      rw [hlv]
      dsimp only
      split
      · exact Or.inr (Or.inl rfl)
      · rw [if_pos ⟨hro, hcf⟩]
        exact Or.inr (Or.inr rfl)
  refine crawlLoop_skip env fuel tick st keys idx hlt ?_ ?_ <;>
    rcases hdec with h | h | h <;> rw [h] <;> decide

/-- C6 witness: in the concrete robots-denied scenario the loop iteration
reduces to the next iteration unchanged. -/
theorem C6_robots_skip_witness :
    crawlLoop envC6 1 0 stC6 [uC6] 0 = crawlLoop envC6 0 1 stC6 [uC6] 1 :=
  C6_robots_skip envC6 0 0 stC6 [uC6] 0 (by decide) rC6 0
    (by decide) (by decide) (by decide) (by decide)

/-- C7 (code bug).  A HEAD response without a `content-type` header stores
Python `None` as the record's mime type; the later
`'text/html' not in mime` test in `extract_links` then raises `TypeError`
instead of recovering locally — the modeled extraction returns the error
outcome. -/
theorem C7_mime_crash :
    (alistLookup stC7.pages uC7).map PageRecord.mime_type = some none ∧
    isError (extractLinks envC7 1 stC7 uC7).1 = true ∧
    (extractLinks envC7 1 stC7 uC7).2 = [] := by
  decide

/-- C9 (corrected): the counterexample.  `head_req`/`get_req` mutate the
caller-supplied headers dict in place (`headers.update(base_headers)`), and
the shared mutable default dict is no longer empty after one
no-argument call. -/
theorem C9_counterexample :
    reqHeaders baseC9 callerC9 ≠ callerC9 ∧ reqHeaders baseC9 [] ≠ [] := by
  decide

/-- C9 (amended).  The headers a request carries are the caller-supplied
(or shared default) dict updated in place with the base headers, the base
values overriding on conflict: for base headers with distinct keys, a key
of the base mapping resolves to its base value and any other key to the
caller dict's value. -/
theorem C9_headers (base d : List (Str × Str)) (k : Str)
    (hnd : (base.map Prod.fst).Nodup) :
    alistLookup (reqHeaders base d) k =
      (match alistLookup base k with
       | some v => some v
       | none => alistLookup d k) := by
  unfold reqHeaders
  induction base generalizing d with
  | nil => simp [dictUpdate, alistLookup]
  | cons p rest ih =>
    obtain ⟨k1, v1⟩ := p
    simp only [List.map_cons, List.nodup_cons] at hnd
    simp only [dictUpdate, alistLookup]
    rw [ih _ hnd.2]
    by_cases hk : k1 = k
    · subst hk
      rw [if_pos rfl]
      have hrest : alistLookup rest k1 = none :=
        alistLookup_eq_none_of_not_mem rest k1 hnd.1
      rw [hrest]
      dsimp only
      exact alistLookup_set_self d k1 v1
    · rw [if_neg hk]
      cases alistLookup rest k with
      | some w => rfl
      | none =>
        dsimp only
        exact alistLookup_set_ne d k1 k v1 (fun he => hk he.symm)

/-- C9 witness: with base `User-Agent: ua` and caller dict `X-Test: 1`, the
request carries the base user agent and the caller's entry. -/
theorem C9_headers_witness :
    alistLookup (reqHeaders baseC9 callerC9) ("User-Agent".data) = some ("ua".data) ∧
    alistLookup (reqHeaders baseC9 callerC9) ("X-Test".data) = some ("1".data) := by
  have h1 := C9_headers baseC9 callerC9 ("User-Agent".data) (by decide)
  have h2 := C9_headers baseC9 callerC9 ("X-Test".data) (by decide)
  rw [h1, h2]
  decide

/-- C10 (confirmed).  When the GET inside `extract_links` answers a
non-200 status, the record is still stamped: `last_visit` advances to
`now + cache_limit` and the status code is recorded, and any further
extraction before that expiry is a no-op. -/
theorem C10_non200 (env : Env) (st : CrawlState) (u : Str) (r : PageRecord)
    (m : Str) (now : Int) (resp : GetResp)
    (hr : alistLookup st.pages u = some r)
    (hm : r.mime_type = some m)
    (hhtml : hasSubstr ("text/html".data) m = true)
    (hs : r.status_code = none)
    (hresp : env.getResp u = some resp)
    (h200 : resp.status ≠ 200) :
    ∃ st1 r1, extractLinks env now st u = (Except.ok st1, [Event.wait, Event.get u]) ∧
      alistLookup st1.pages u = some r1 ∧
      r1.last_visit = some (now + env.cacheLimit) ∧
      r1.status_code = some resp.status ∧
      (∀ now2, now2 < now + env.cacheLimit →
        extractLinks env now2 st1 u = (Except.ok st1, [])) := by
  have hext : extractLinks env now st u = extractFetch env now st u := by
    unfold extractLinks
    rw [hr]
    dsimp only
    rw [hm]
    dsimp only
    rw [if_neg (show ¬ hasSubstr ("text/html".data) m = false by simp [hhtml])]
    rw [hs]
  have hfetch : extractFetch env now st u
      = (Except.ok (updPage st u (fun r =>
          { r with last_visit := some (now + env.cacheLimit),
                   status_code := some resp.status })),
         [Event.wait, Event.get u]) := by
    unfold extractFetch
    rw [hresp]
    dsimp only
    rw [if_pos h200]
  have hk1 : alistLookup (updPage st u (fun r =>
      { r with last_visit := some (now + env.cacheLimit),
               status_code := some resp.status })).pages u
      = some { r with last_visit := some (now + env.cacheLimit),
                      status_code := some resp.status } := by
    rw [updPage_lookup_self, hr]
    rfl
  refine ⟨_, _, by rw [hext, hfetch], hk1, rfl, rfl, ?_⟩
  intro now2 hlt
  have hmime : ({ r with last_visit := some (now + env.cacheLimit),
                         status_code := some resp.status } : PageRecord).mime_type
      = some m := hm
  unfold extractLinks
  rw [hk1]
  dsimp only
  rw [hmime]
  try dsimp only
  rw [if_neg (show ¬ hasSubstr ("text/html".data) m = false by simp [hhtml])]
  try dsimp only
  rw [if_pos hlt]

/-- C10 witness: in the concrete scenario the 404 fetch stamps
`last_visit = 10` and `status_code = 404`, and a call before expiry is a
no-op. -/
theorem C10_non200_witness :
    ∃ st1, extractLinks envC2 0 stC10 uC10 = (Except.ok st1, [Event.wait, Event.get uC10]) ∧
      (alistLookup st1.pages uC10).map PageRecord.last_visit = some (some 10) ∧
      (alistLookup st1.pages uC10).map PageRecord.status_code = some (some 404) ∧
      extractLinks envC2 5 st1 uC10 = (Except.ok st1, []) := by
  obtain ⟨st1, r1, h1, h2, h3, h4, h5⟩ := C10_non200 envC2 stC10 uC10 rC10
    ("text/html".data) 0 { status := 404, body := [], hrefs := [], imgs := [] }
    (by decide) (by decide) (by decide) (by decide) (by decide) (by decide)
  refine ⟨st1, h1, ?_, ?_, h5 5 (by decide)⟩
  · rw [h2]
    dsimp only [Option.map]
    rw [h3]
    decide
  · rw [h2]
    dsimp only [Option.map]
    rw [h4]

/-!  ### Character-level lemmas about the URL parser -/

theorem breakAt_snd_none (c : Char) (l : Str) (h : (breakAt c l).2 = none) : c ∉ l := by
  induction l with
  | nil => simp
  | cons y ys ih =>
    simp only [breakAt] at h
    by_cases hy : y = c
    · simp [hy] at h
    · simp only [if_neg hy] at h
      intro hm
      rcases List.mem_cons.mp hm with h1 | h2
      · exact hy h1.symm
      · exact ih h h2

theorem all_not_mem (pr : Char → Bool) (l : Str) (hall : l.all pr = true) (c : Char)
    (hc : pr c = false) : c ∉ l := by
  intro hm
  have ht := List.all_eq_true.mp hall c hm
  rw [hc] at ht
  exact absurd ht (by simp)

theorem mem_splitFragment_fst (u : Str) (x : Char) (h : x ∈ (splitFragment u).1) :
    x ∈ u ∧ x ≠ '#' := by
  unfold splitFragment at h
  split at h
  · rename_i before frag heq
    have h1 : x ∈ (breakAt '#' u).1 := by rw [heq]; exact h
    exact mem_breakAt_fst _ _ _ h1
  · rename_i pr heq
    refine ⟨h, fun he => ?_⟩
    exact breakAt_snd_none '#' u (congrArg Prod.snd heq) (he ▸ h)

theorem mem_splitQuery_fst (u : Str) (x : Char) (h : x ∈ (splitQuery u).1) :
    x ∈ u ∧ x ≠ '?' := by
  unfold splitQuery at h
  split at h
  · rename_i before q heq
    have h1 : x ∈ (breakAt '?' u).1 := by rw [heq]; exact h
    exact mem_breakAt_fst _ _ _ h1
  · rename_i pr heq
    refine ⟨h, fun he => ?_⟩
    exact breakAt_snd_none '?' u (congrArg Prod.snd heq) (he ▸ h)

theorem mem_splitNetloc_fst (u : Str) (x : Char) (h : x ∈ (splitNetloc u).1) :
    x ≠ '/' ∧ x ≠ '?' ∧ x ≠ '#' := by
  unfold splitNetloc at h
  split at h
  · obtain ⟨_, hp⟩ := mem_takeUntil_fst _ _ _ h
    simp at hp
    exact ⟨hp.1.1, hp.1.2, hp.2⟩
  · simp at h

theorem mem_pathParams (p : Str) (x : Char) (h : x ∈ pathParams p) : x ∈ p ∨ x = '/' := by
  unfold pathParams at h
  split at h
  · exact Or.inl h
  · split at h
    · split at h
      · rename_i revSeg revPre heq
        split at h
        · rename_i seg w heq2
          rcases List.mem_append.mp h with h1 | h2
          · left
            have hr : x ∈ revPre := List.mem_reverse.mp h1
            have hsnd : (breakAt '/' p.reverse).2 = some revPre := congrArg Prod.snd heq
            exact List.mem_reverse.mp (mem_breakAt_snd '/' p.reverse revPre x hsnd hr)
          · rcases List.mem_cons.mp h2 with h3 | h4
            · exact Or.inr h3
            · left
              have hseg : x ∈ (breakAt ';' revSeg.reverse).1 := by
                rw [congrArg Prod.fst heq2]
                exact h4
              have h5 : x ∈ revSeg.reverse := (mem_breakAt_fst _ _ _ hseg).1
              have h6 : x ∈ (breakAt '/' p.reverse).1 := by
                rw [congrArg Prod.fst heq]
                exact List.mem_reverse.mp h5
              exact List.mem_reverse.mp (mem_breakAt_fst _ _ _ h6).1
        · exact Or.inl h
      · exact Or.inl h
    · exact Or.inl (mem_breakAt_fst _ _ _ h).1

theorem mem_hostnameOf (nl : Str) (x : Char) (h : x ∈ hostnameOf nl) :
    ∃ y, y ∈ nl ∧ x = lowerChar y := by
  unfold hostnameOf at h
  dsimp only at h
  rw [lowerStr] at h
  obtain ⟨y, hy, hxy⟩ := List.mem_map.mp h
  refine ⟨y, ?_, hxy.symm⟩
  have hinfo : ∀ z : Char,
      z ∈ (match breakAt '@' nl.reverse with
           | (revH, some _) => revH.reverse
           | (_, none) => nl) → z ∈ nl := by
    intro z hz
    split at hz
    · rename_i revH w heq
      have h1 : z ∈ (breakAt '@' nl.reverse).1 := by
        rw [congrArg Prod.fst heq]
        exact List.mem_reverse.mp hz
      exact List.mem_reverse.mp (mem_breakAt_fst _ _ _ h1).1
    · exact hz
  split at hy
  · rename_i pre rest heq
    have h1 : y ∈ rest := (mem_breakAt_fst _ _ _ hy).1
    exact hinfo y (mem_breakAt_snd '[' _ rest y (congrArg Prod.snd heq) h1)
  · exact hinfo y (mem_breakAt_fst _ _ _ hy).1

theorem mem_urlsplit_netloc (url : Str) (x : Char) (h : x ∈ (urlsplitM url).netloc) :
    x ≠ '/' ∧ x ≠ '?' ∧ x ≠ '#' := by
  unfold urlsplitM at h
  dsimp only at h
  exact mem_splitNetloc_fst _ _ h

theorem mem_urlsplit_path (url : Str) (x : Char) (h : x ∈ (urlsplitM url).path) :
    x ≠ '?' ∧ x ≠ '#' := by
  unfold urlsplitM at h
  dsimp only at h
  obtain ⟨h1, hq⟩ := mem_splitQuery_fst _ _ h
  obtain ⟨_, hf⟩ := mem_splitFragment_fst _ _ h1
  exact ⟨hq, hf⟩

theorem mem_lstripChars (cs : List Char) (l : Str) (x : Char)
    (h : x ∈ lstripChars cs l) : x ∈ l := by
  induction l with
  | nil =>
    simp [lstripChars] at h
  | cons y ys ih =>
    unfold lstripChars at h ih
    rw [List.dropWhile_cons] at h
    split at h
    · exact List.mem_cons_of_mem _ (ih h)
    · exact h

theorem mem_clean_hn (url : Str) (x : Char) (h : x ∈ (urlparseM url).hostname) :
    x ≠ '?' ∧ x ≠ '#' := by
  unfold urlparseM at h
  dsimp only at h
  obtain ⟨y, hy, hxy⟩ := mem_hostnameOf _ _ h
  obtain ⟨_, hq, hf⟩ := mem_urlsplit_netloc url y hy
  rw [hxy]
  exact lowerChar_keeps y ⟨hq, hf⟩

theorem mem_clean_path (url : Str) (x : Char) (h : x ∈ (urlparseM url).path) :
    x ≠ '?' ∧ x ≠ '#' := by
  unfold urlparseM at h
  dsimp only at h
  rcases mem_pathParams _ _ h with h1 | h1
  · exact mem_urlsplit_path url x h1
  · subst h1
    exact ⟨by decide, by decide⟩

theorem hp_chars (p0 : Str) (x : Char)
    (hchars : ∀ y ∈ p0, y ≠ '?' ∧ y ≠ '#')
    (hx : x ∈ (if (if ("../".data).isPrefixOf p0 then
                     '/' :: lstripChars ['.', '/'] p0 else p0) = []
               then ['/']
               else (if ("../".data).isPrefixOf p0 then
                     '/' :: lstripChars ['.', '/'] p0 else p0))) :
    x ≠ '?' ∧ x ≠ '#' := by
  have hslash : ('/' : Char) ≠ '?' ∧ ('/' : Char) ≠ '#' := ⟨by decide, by decide⟩
  have hstrip : ∀ z, z ∈ '/' :: lstripChars ['.', '/'] p0 → z ≠ '?' ∧ z ≠ '#' := by
    intro z hz
    rcases List.mem_cons.mp hz with hc | hd
    · subst hc
      exact hslash
    · exact hchars z (mem_lstripChars _ _ _ hd)
  repeat' split at hx
  all_goals first
    | exact hchars x hx
    | exact hstrip x hx
    | (simp at hx; subst hx; exact hslash)

theorem processHref_clean_chars (host href raw clean : Str)
    (hok : processHref host href = HrefOutcome.ok raw clean) (x : Char)
    (hx : x ∈ clean) : x ∈ host ∨ (x ≠ '?' ∧ x ≠ '#') := by
  have hlit : ∀ y ∈ "https://".data, y ≠ '?' ∧ y ≠ '#' := by decide
  unfold processHref at hok
  split at hok
  · simp at hok
  · dsimp only at hok
    split at hok
    · simp at hok
    · injection hok with h1 h2
      subst h2
      rcases List.mem_append.mp hx with hx1 | hx2
      · rcases List.mem_append.mp hx1 with ha | hb
        · exact Or.inr (hlit x ha)
        · split at hb
          · exact Or.inl hb
          · exact Or.inr (mem_clean_hn _ _ hb)
      · exact Or.inr (hp_chars _ x (fun y hy => mem_clean_path _ y hy) hx2)

/-- C3 (corrected): the counterexample.  `load_sitemap` passes the raw
`<loc>` text straight to `add_link`: the frontier gains the key
`https://a.com/p?q=1`, which contains a query string. -/
theorem C3_counterexample :
    (match (loadSitemap envC3 0 stEmpty [smC3]).1 with
     | Except.ok st1 => (alistLookup st1.pages locC3).isSome
     | Except.error _ => false) = true ∧
    strContains locC3 '?' = true := by
  decide

/-- C3 (amended).  Every canonical URL the extraction step inserts is free
of query strings and fragments (assuming the configured host itself carries
none), and so is the seed URL `https://{host}/`; sitemap loading, by
contrast, inserts the raw `<loc>` text unnormalized. -/
theorem C3_canonical_keys (host href raw clean : Str)
    (hq : strContains host '?' = false) (hf : strContains host '#' = false)
    (hok : processHref host href = HrefOutcome.ok raw clean) :
    strContains clean '?' = false ∧ strContains clean '#' = false ∧
    strContains ("https://".data ++ host ++ ['/']) '?' = false ∧
    strContains ("https://".data ++ host ++ ['/']) '#' = false := by
  refine ⟨?_, ?_, ?_, ?_⟩
  · rw [strContains_false]
    intro hm
    rcases processHref_clean_chars host href raw clean hok '?' hm with h | h
    · exact ((strContains_false _ _).mp hq) h
    · exact h.1 rfl
  · rw [strContains_false]
    intro hm
    rcases processHref_clean_chars host href raw clean hok '#' hm with h | h
    · exact ((strContains_false _ _).mp hf) h
    · exact h.2 rfl
  · rw [strContains_false]
    intro hm
    rcases List.mem_append.mp hm with h1 | h2
    · rcases List.mem_append.mp h1 with ha | hb
      · exact absurd ha (by decide)
      · exact ((strContains_false _ _).mp hq) hb
    · exact absurd h2 (by decide)
  · rw [strContains_false]
    intro hm
    rcases List.mem_append.mp hm with h1 | h2
    · rcases List.mem_append.mp h1 with ha | hb
      · exact absurd ha (by decide)
      · exact ((strContains_false _ _).mp hf) hb
    · exact absurd h2 (by decide)

/-- C3 witness: normalizing `/p?q=1#z` against host `a.com` yields the
canonical key `https://a.com/p`, which carries no query and no fragment. -/
theorem C3_canonical_keys_witness :
    strContains ("https://a.com/p".data) '?' = false ∧
    strContains ("https://a.com/p".data) '#' = false := by
  have h := C3_canonical_keys ("a.com".data) ("/p?q=1#z".data)
    ("https://a.com/p?q=1".data) ("https://a.com/p".data)
    (by decide) (by decide) (by decide)
  exact ⟨h.1, h.2.1⟩

/-!  ### Canonical-form evaluation lemmas (for idempotence) -/

theorem httpsData : "https://".data = ['h', 't', 't', 'p', 's', ':', '/', '/'] := rfl

theorem isCleanHost_spec (host : Str) (h : isCleanHost host = true) :
    host ≠ [] ∧ host.all hostCharOk = true ∧ lowerStr host = host := by
  unfold isCleanHost at h
  simp only [Bool.and_eq_true, Bool.not_eq_true', beq_iff_eq] at h
  refine ⟨?_, h.1.2, h.2⟩
  intro he
  subst he
  simp at h

theorem isCleanPath_spec (p : Str) (h : isCleanPath p = true) :
    ∃ q, p = '/' :: q ∧ p.all pathCharOk = true := by
  cases p with
  | nil => simp [isCleanPath] at h
  | cons c q =>
    simp only [isCleanPath, Bool.and_eq_true, beq_iff_eq] at h
    refine ⟨q, by rw [h.1], ?_⟩
    rw [h.1]
    simp only [List.all_cons, h.2, Bool.and_true]
    decide

theorem salvageHref_https (host rest : Str) :
    salvageHref host ("https://".data ++ rest) = "https://".data ++ rest := rfl

theorem splitScheme_https (rest : Str) :
    splitScheme ("https://".data ++ rest) = ("https".data, '/' :: '/' :: rest) := rfl

theorem hostCharOk_netpred (x : Char) (h : hostCharOk x = true) :
    (decide (x = '/') || decide (x = '?') || decide (x = '#')) = false := by
  simp only [hostCharOk, Bool.not_eq_eq_eq_not, Bool.not_true, Bool.or_eq_false_iff,
    beq_eq_false_iff_ne, ne_eq] at h
  simp [h.1.1.1.1.1, h.1.1.1.1.2, h.1.1.1.2]

theorem splitNetloc_hosted (host : Str) (b : Str)
    (hh : host.all hostCharOk = true) :
    splitNetloc ('/' :: '/' :: (host ++ '/' :: b)) = (host, '/' :: b) := by
  unfold splitNetloc
  exact takeUntil_app _ host '/' b
    (fun x hx => hostCharOk_netpred x (List.all_eq_true.mp hh x hx)) (by decide)

theorem pathCharOk_not_mem (p : Str) (hall : p.all pathCharOk = true) :
    '#' ∉ p ∧ '?' ∉ p ∧ ';' ∉ p :=
  ⟨all_not_mem pathCharOk p hall '#' (by decide),
   all_not_mem pathCharOk p hall '?' (by decide),
   all_not_mem pathCharOk p hall ';' (by decide)⟩

theorem urlsplit_canonical (host p : Str)
    (hh : host.all hostCharOk = true)
    (hp : isCleanPath p = true) :
    urlsplitM ("https://".data ++ (host ++ p))
      = { scheme := "https".data, netloc := host, path := p, query := [], fragment := [] } := by
  obtain ⟨q, hq, hall⟩ := isCleanPath_spec p hp
  obtain ⟨hnh, hnq, hns⟩ := pathCharOk_not_mem p hall
  unfold urlsplitM
  dsimp only
  rw [splitScheme_https (host ++ p)]
  dsimp only
  rw [hq, splitNetloc_hosted host q hh, ← hq]
  dsimp only
  unfold splitFragment
  rw [breakAt_not_mem '#' p hnh]
  dsimp only
  unfold splitQuery
  rw [breakAt_not_mem '?' p hnq]

theorem pathParams_no_semi (p : Str) (h : strContains p ';' = false) :
    pathParams p = p := by
  unfold pathParams
  rw [if_pos h]

theorem hostCharOk_false_at (c : Char) (hfalse : hostCharOk c = false) (host : Str)
    (hh : host.all hostCharOk = true) : c ∉ host :=
  all_not_mem hostCharOk host hh c hfalse

theorem hostnameOf_clean (host : Str) (hh : host.all hostCharOk = true)
    (hl : lowerStr host = host) : hostnameOf host = host := by
  have h1 : '@' ∉ host.reverse := fun hm =>
    hostCharOk_false_at '@' (by decide) host hh (List.mem_reverse.mp hm)
  have h2 : '[' ∉ host := hostCharOk_false_at '[' (by decide) host hh
  have h3 : ':' ∉ host := hostCharOk_false_at ':' (by decide) host hh
  unfold hostnameOf
  rw [breakAt_not_mem '@' host.reverse h1]
  dsimp only
  rw [breakAt_not_mem '[' host h2]
  dsimp only
  rw [breakAt_not_mem ':' host h3]
  exact hl

theorem urlparse_canonical (host p : Str)
    (hh : isCleanHost host = true) (hp : isCleanPath p = true) :
    urlparseM ("https://".data ++ (host ++ p))
      = { scheme := "https".data, netloc := host, path := p,
          fragment := [], hostname := host } := by
  obtain ⟨hne, hall, hl⟩ := isCleanHost_spec host hh
  obtain ⟨q, hq, hpall⟩ := isCleanPath_spec p hp
  obtain ⟨_, _, hns⟩ := pathCharOk_not_mem p hpall
  unfold urlparseM
  rw [urlsplit_canonical host p hall hp]
  dsimp only
  rw [pathParams_no_semi p ((strContains_false p ';').mpr hns)]
  rw [hostnameOf_clean host hall hl]

/-- C8 (confirmed).  URL normalization is a pure function of the raw href
and the home host (determinism), and it is idempotent on canonical URLs:
re-normalizing `https://{host}{path}` — for a well-formed lowercase host and
a delimiter-free path, exactly the shape the normalizer itself outputs —
yields the very same string, as both the stored raw form and the canonical
form. -/
theorem C8_normalize (host p : Str)
    (hh : isCleanHost host = true) (hp : isCleanPath p = true) :
    (∀ h1 h2 : Str, h1 = h2 → processHref host h1 = processHref host h2) ∧
    processHref host ("https://".data ++ (host ++ p))
      = HrefOutcome.ok ("https://".data ++ (host ++ p))
          ("https://".data ++ (host ++ p)) := by
  refine ⟨fun h1 h2 he => by rw [he], ?_⟩
  obtain ⟨hne, hall, hl⟩ := isCleanHost_spec host hh
  obtain ⟨q, hq, hpall⟩ := isCleanPath_spec p hp
  have hene : ("https://".data ++ (host ++ p)) ≠ [] := by
    rw [httpsData]
    simp
  unfold processHref
  rw [if_neg hene]
  dsimp only
  rw [salvageHref_https host (host ++ p)]
  rw [urlparse_canonical host p hh hp]
  dsimp only
  rw [if_neg (show ¬("https".data = [] ∨ host = []) from
    fun hor => hor.elim (by decide) hne)]
  try dsimp only
  rw [if_pos rfl]
  have hnp2 : ("../".data).isPrefixOf ('/' :: q) = false := rfl
  have hnp : ¬ ("../".data).isPrefixOf p = true := by
    rw [hq, hnp2]
    simp
  rw [if_neg hnp]
  rw [if_neg hne, if_neg (show ¬p = [] by rw [hq]; simp)]
  rw [List.append_assoc]

/-- C8 witness: normalizing the canonical URL `https://example.com/about`
against host `example.com` yields itself. -/
theorem C8_normalize_witness :
    processHref ("example.com".data) ("https://example.com/about".data)
      = HrefOutcome.ok ("https://example.com/about".data)
          ("https://example.com/about".data) := by
  have h := (C8_normalize ("example.com".data) ("/about".data)
    (by decide) (by decide)).2
  exact h

